import Mathlib

set_option autoImplicit false

/-!
Verification development for the jemalloc page allocator (PA) shard,
`include/jemalloc/internal/pa.h`.

The repository provides only the header `pa.h`: the struct layout of
`pa_shard_s` and `pa_shard_stats_s`, the inline helpers
(`pa_shard_stats_mapped_add`, `pa_shard_dirty_decay_ms_get`,
`pa_shard_muzzy_decay_ms_get`, `pa_shard_may_force_decay`) and the
declarations of the public operations (`pa_alloc`, `pa_expand`,
`pa_shrink`, `pa_dalloc`, `pa_decay_all`, `pa_maybe_decay_purge`).
The bodies of the public operations live in `pa.c`, which is not part of
the sources; those are modelled from the specification.

Modelling conventions:
- Addresses and sizes are in uniform page units (every quantity in the C
  code is a multiple of the page size; `nactive` counts pages, extent
  sizes are byte counts that are page multiples — we use one unit).
- The OS mapping collaborator is modelled as a bump cursor `os_next`:
  every fresh mapping is carved at `os_next`, which only grows, so fresh
  mappings never overlap previously issued address space.  Whether the
  OS can satisfy a mapping request is an input (`os_ok`), modelling
  address-space exhaustion.
- Extents in the "active" state are owned by callers, not stored in the
  shard in C; the model tracks them in a ghost field `active` so that
  the no-overlap and conservation invariants can be stated.
- The size-class index, slab flag and zero-tracking of `edata_t` are
  omitted: no claim under verification refers to them.
-/

namespace PA

/-- One extent descriptor (`edata_t`): a contiguous page-aligned region,
given by its base address and its size, both in page units. -/
structure Edata where
  base : Nat
  size : Nat
deriving DecidableEq

/-- Which ecache tier a decay controller drives (`decay_dirty` drives
dirty → muzzy, `decay_muzzy` drives muzzy → retained). -/
inductive Tier where
  | dirty
  | muzzy
deriving DecidableEq

/-- Mirrors `enum pa_decay_purge_setting_e` from `pa.h`. -/
inductive PaDecayPurgeSetting where
  | always
  | never
  | onEpochAdvance
deriving DecidableEq

/-- Ghost observation recording which source satisfied an allocation. -/
inductive AllocSource where
  | dirty
  | muzzy
  | retained
  | os
deriving DecidableEq

/-- Mirrors `struct pa_shard_decay_stats_s`: purge sweeps, madvise
calls, pages purged. -/
structure PaShardDecayStats where
  npurge : Nat
  nmadvise : Nat
  purged : Nat
deriving DecidableEq

/-- Mirrors `struct pa_shard_stats_s`: per-tier decay stats, bytes
currently mapped excluding retained memory, abandoned VM space. -/
structure PaShardStats where
  decay_dirty : PaShardDecayStats
  decay_muzzy : PaShardDecayStats
  mapped : Nat
  abandoned_vm : Nat
deriving DecidableEq

/-- One decay controller (`decay_t`): the configured decay time in
milliseconds (−1 meaning never, 0 meaning immediate) and the current
epoch timestamp. -/
structure Decay where
  decay_ms : Int
  epoch : Nat
deriving DecidableEq

/-- Mirrors `struct pa_shard_s`.  `active` is the ghost collection of
descriptors currently handed out to callers; `os_next` is the model of
the OS mapping collaborator's cursor (fresh mappings are issued at
strictly increasing addresses). -/
structure PaShard where
  nactive : Nat
  ecache_dirty : List Edata
  ecache_muzzy : List Edata
  ecache_retained : List Edata
  active : List Edata
  ecache_grow : Nat
  extent_sn_next : Nat
  stats : PaShardStats
  decay_dirty : Decay
  decay_muzzy : Decay
  os_next : Nat
deriving DecidableEq

/-- Total size of the extents in a list, in page units. -/
def sumBytes (c : List Edata) : Nat :=
  (c.map Edata.size).sum

/-- Scan a cache for the first extent satisfying `p`; on a hit, return
it together with the remaining cache contents. -/
def findExtract (p : Edata → Bool) : List Edata → Option (Edata × List Edata)
  | [] => none
  | e :: rest =>
    if p e then some (e, rest)
    else
      match findExtract p rest with
      | some q => some (q.1, e :: q.2)
      | none => none

/-- Modelled from the spec: cache lookup for `pa_alloc` ("dirty cache
exact/best fit", likewise muzzy and retained).  The model selects a
cached extent of sufficient size; the tie-breaking among sufficient
candidates (exact before best fit) is not modelled, as no claim depends
on which sufficient extent is chosen. -/
def cacheTake (sz : Nat) (c : List Edata) : Option (Edata × List Edata) :=
  findExtract (fun e => decide (sz ≤ e.size)) c

/-- Modelled from the spec: donor lookup for `pa_expand` ("claiming
adjacent free space"): an extent starting exactly at address `b` with at
least `need` pages. -/
def takeAdj (b need : Nat) (c : List Edata) : Option (Edata × List Edata) :=
  findExtract (fun e => decide (e.base = b ∧ need ≤ e.size)) c

/-- Reading a decay controller's configured interval (`decay_ms_read`
from the decay module, whose sources are not in the repository; it
returns the configured milliseconds value). -/
def decay_ms_read (d : Decay) : Int :=
  d.decay_ms

/-- Embeds `pa_shard_dirty_decay_ms_get` from `pa.h`. -/
def pa_shard_dirty_decay_ms_get (s : PaShard) : Int :=
  decay_ms_read s.decay_dirty

/-- Embeds `pa_shard_muzzy_decay_ms_get` from `pa.h`. -/
def pa_shard_muzzy_decay_ms_get (s : PaShard) : Int :=
  decay_ms_read s.decay_muzzy

/-- Embeds `pa_shard_may_force_decay` from `pa.h`:
`!(dirty_decay_ms == -1 || muzzy_decay_ms == -1)`. -/
def pa_shard_may_force_decay (s : PaShard) : Bool :=
  !(pa_shard_dirty_decay_ms_get s == -1 || pa_shard_muzzy_decay_ms_get s == -1)

/-- The locked counter increment (`locked_inc_zu`): the lock acquisition
itself is a concurrency artefact with no functional content in a
sequential embedding; the functional effect is the addition. -/
def locked_inc_zu (n size : Nat) : Nat :=
  n + size

/-- Embeds `pa_shard_stats_mapped_add` from `pa.h`: under the stats
mutex, increment `stats->mapped` by `size`. -/
def pa_shard_stats_mapped_add (s : PaShard) (size : Nat) : PaShard :=
  { s with stats := { s.stats with mapped := locked_inc_zu s.stats.mapped size } }

/-- Modelled from the spec: `pa_shard_extent_sn_next` (defined in the
missing `pa.c`), the monotonically increasing extent serial-number
source: returns the next serial number and advances the shard-wide
counter. -/
def pa_shard_extent_sn_next (s : PaShard) : Nat × PaShard :=
  (s.extent_sn_next, { s with extent_sn_next := s.extent_sn_next + 1 })

/-- Modelled from the spec: `pa_shard_init` (defined in the missing
`pa.c`): empty caches, zero counters, configured decay intervals. -/
def pa_shard_init (dirty_decay_ms muzzy_decay_ms : Int) : PaShard :=
  { nactive := 0
    ecache_dirty := []
    ecache_muzzy := []
    ecache_retained := []
    active := []
    ecache_grow := 1
    extent_sn_next := 0
    stats := ⟨⟨0, 0, 0⟩, ⟨0, 0, 0⟩, 0, 0⟩
    decay_dirty := ⟨dirty_decay_ms, 0⟩
    decay_muzzy := ⟨muzzy_decay_ms, 0⟩
    os_next := 0 }

/-- Modelled from the spec: `pa_alloc` (defined in the missing `pa.c`).
Tries, in order: dirty cache fit, muzzy cache fit, retained cache fit,
then a fresh OS mapping sized by the growth cursor (rounded up to the
requested size).  A cache hit splits the cached extent, granting a
prefix of the requested size and returning the tail to the same cache.
A fresh mapping grants a prefix and places the tail in the retained
cache.  `mapped` grows by the granted size when the request is satisfied
from retained memory or a fresh mapping (the `mapped_add` out-parameter
of the C function).  Fails only when all caches miss and the OS
collaborator cannot satisfy the mapping (`os_ok = false`); metadata
allocation is not modelled as failing, so the model has strictly fewer
failure sources than the code.  Requests of size 0 do not occur in the C
code (sizes are positive page multiples) and are rejected without effect. -/
def pa_alloc (s : PaShard) (size : Nat) (os_ok : Bool) :
    PaShard × Option (Edata × AllocSource) :=
  if size = 0 then (s, none)
  else
    match cacheTake size s.ecache_dirty with
    | some (f, rest) =>
      ({ s with
          ecache_dirty :=
            if size < f.size then (⟨f.base + size, f.size - size⟩ : Edata) :: rest else rest
          active := (⟨f.base, size⟩ : Edata) :: s.active
          nactive := s.nactive + size },
        some (⟨f.base, size⟩, AllocSource.dirty))
    | none =>
      match cacheTake size s.ecache_muzzy with
      | some (f, rest) =>
        ({ s with
            ecache_muzzy :=
              if size < f.size then (⟨f.base + size, f.size - size⟩ : Edata) :: rest else rest
            active := (⟨f.base, size⟩ : Edata) :: s.active
            nactive := s.nactive + size },
          some (⟨f.base, size⟩, AllocSource.muzzy))
      | none =>
        match cacheTake size s.ecache_retained with
        | some (f, rest) =>
          ({ s with
              ecache_retained :=
                if size < f.size then (⟨f.base + size, f.size - size⟩ : Edata) :: rest else rest
              active := (⟨f.base, size⟩ : Edata) :: s.active
              nactive := s.nactive + size
              stats := { s.stats with mapped := s.stats.mapped + size } },
            some (⟨f.base, size⟩, AllocSource.retained))
        | none =>
          if os_ok then
            let msize := max size s.ecache_grow
            ({ s with
                active := (⟨s.os_next, size⟩ : Edata) :: s.active
                ecache_retained :=
                  if size < msize then
                    (⟨s.os_next + size, msize - size⟩ : Edata) :: s.ecache_retained
                  else s.ecache_retained
                nactive := s.nactive + size
                os_next := s.os_next + msize
                ecache_grow := 2 * msize
                extent_sn_next := s.extent_sn_next + 1
                stats := { s.stats with mapped := s.stats.mapped + size } },
              some (⟨s.os_next, size⟩, AllocSource.os))
          else (s, none)

/-- Donor remainder after `pa_expand` consumes `need` pages from the
front of donor `d`: the donor is shrunk, or removed entirely if fully
consumed. -/
def donorRest (d : Edata) (need : Nat) (rest : List Edata) : List Edata :=
  if need < d.size then (⟨d.base + need, d.size - need⟩ : Edata) :: rest else rest

/-- Modelled from the spec: `pa_expand` (defined in the missing `pa.c`).
Grows an active descriptor in place by claiming adjacent free space from
the retained, muzzy, then dirty caches (in that preference order); on
success the donor is shrunk or removed, the descriptor's size becomes
`new_size`, and `nactive` grows by the expansion amount.  `mapped` grows
by the expansion amount when the space comes from retained memory (the
`mapped_add` out-parameter of the C function).  Returns `true` on error,
in which case nothing is changed. -/
def pa_expand (s : PaShard) (e : Edata) (new_size : Nat) : PaShard × Bool :=
  if e ∈ s.active ∧ e.size < new_size then
    let need := new_size - e.size
    let b := e.base + e.size
    match takeAdj b need s.ecache_retained with
    | some (d, rest) =>
      ({ s with
          ecache_retained := donorRest d need rest
          active := (⟨e.base, new_size⟩ : Edata) :: s.active.erase e
          nactive := s.nactive + need
          stats := { s.stats with mapped := s.stats.mapped + need } }, false)
    | none =>
      match takeAdj b need s.ecache_muzzy with
      | some (d, rest) =>
        ({ s with
            ecache_muzzy := donorRest d need rest
            active := (⟨e.base, new_size⟩ : Edata) :: s.active.erase e
            nactive := s.nactive + need }, false)
      | none =>
        match takeAdj b need s.ecache_dirty with
        | some (d, rest) =>
          ({ s with
              ecache_dirty := donorRest d need rest
              active := (⟨e.base, new_size⟩ : Edata) :: s.active.erase e
              nactive := s.nactive + need }, false)
        | none => (s, true)
  else (s, true)

/-- Modelled from the spec: `pa_shrink` (defined in the missing `pa.c`).
Splits the active descriptor; the freed tail goes to the dirty cache,
`nactive` drops by the freed amount, and the `generated_dirty` flag
(second component) is set to signal that new dirty pages were produced.
On the failure path nothing changes and the flag stays `false`. -/
def pa_shrink (s : PaShard) (e : Edata) (new_size : Nat) : PaShard × Bool :=
  if e ∈ s.active ∧ 0 < new_size ∧ new_size < e.size then
    ({ s with
        active := (⟨e.base, new_size⟩ : Edata) :: s.active.erase e
        ecache_dirty := (⟨e.base + new_size, e.size - new_size⟩ : Edata) :: s.ecache_dirty
        nactive := s.nactive - (e.size - new_size) }, true)
  else (s, false)

/-- Modelled from the spec: `pa_dalloc` (defined in the missing `pa.c`).
Moves the descriptor's full extent to the dirty cache and decrements the
active-page counter.  The `generated_dirty` out-parameter (second
component) is set to `true` unconditionally, matching the header comment
"we alwyas set it for now".  Address-adjacent coalescing inside the
dirty cache is not modelled: it merges adjacent disjoint ranges and
affects no claim under verification. -/
def pa_dalloc (s : PaShard) (e : Edata) : PaShard × Bool :=
  (if e ∈ s.active then
    { s with
        active := s.active.erase e
        ecache_dirty := e :: s.ecache_dirty
        nactive := s.nactive - e.size }
  else s, true)

/-- The ecache a decay controller drives. -/
def tierEcache (s : PaShard) : Tier → List Edata
  | Tier.dirty => s.ecache_dirty
  | Tier.muzzy => s.ecache_muzzy

/-- The decay controller of a tier. -/
def tierDecay (s : PaShard) : Tier → Decay
  | Tier.dirty => s.decay_dirty
  | Tier.muzzy => s.decay_muzzy

/-- Record one purge sweep over `n` extents totalling `pages` pages in a
tier's decay stats. -/
def bumpDecayStats (d : PaShardDecayStats) (n pages : Nat) : PaShardDecayStats :=
  ⟨d.npurge + 1, d.nmadvise + n, d.purged + pages⟩

/-- Modelled from the spec: `pa_decay_all` (defined in the missing
`pa.c`).  Forces every descriptor in the given tier's cache to the next
lifecycle state: dirty extents move to the muzzy cache, muzzy extents
move to the retained cache (their pages are released, so `mapped`
shrinks); with `fully_decay` the extents are instead unmapped outright.
Purge statistics for the tier are updated. -/
def pa_decay_all (s : PaShard) (t : Tier) (fully_decay : Bool) : PaShard :=
  match t with
  | Tier.dirty =>
    let c := s.ecache_dirty
    if fully_decay then
      { s with
          ecache_dirty := []
          stats := { s.stats with
            mapped := s.stats.mapped - sumBytes c
            decay_dirty := bumpDecayStats s.stats.decay_dirty c.length (sumBytes c) } }
    else
      { s with
          ecache_dirty := []
          ecache_muzzy := c ++ s.ecache_muzzy
          stats := { s.stats with
            decay_dirty := bumpDecayStats s.stats.decay_dirty c.length (sumBytes c) } }
  | Tier.muzzy =>
    let c := s.ecache_muzzy
    if fully_decay then
      { s with
          ecache_muzzy := []
          stats := { s.stats with
            mapped := s.stats.mapped - sumBytes c
            decay_muzzy := bumpDecayStats s.stats.decay_muzzy c.length (sumBytes c) } }
    else
      { s with
          ecache_muzzy := []
          ecache_retained := c ++ s.ecache_retained
          stats := { s.stats with
            mapped := s.stats.mapped - sumBytes c
            decay_muzzy := bumpDecayStats s.stats.decay_muzzy c.length (sumBytes c) } }

/-- Advance a tier's decay epoch to `now`. -/
def setTierEpoch (s : PaShard) (t : Tier) (now : Nat) : PaShard :=
  match t with
  | Tier.dirty => { s with decay_dirty := { s.decay_dirty with epoch := now } }
  | Tier.muzzy => { s with decay_muzzy := { s.decay_muzzy with epoch := now } }

/-- Modelled from the spec: `pa_maybe_decay_purge` (defined in the
missing `pa.c`).  A configured decay time of −1 ("never") purges nothing
and leaves the state untouched; a decay time of 0 ("immediate") purges
all currently cached pages of the tier on the very next check; both
return `false` (no epoch advance).  For a positive decay time the epoch
advances once wall-clock time crosses the next epoch boundary, and the
purge policy is applied: `NEVER` purges nothing from this call site,
`ALWAYS` and `ON_EPOCH_ADVANCE` purge the eligible pages (the
sub-interval smoothing fraction is abstracted to a full purge of the
cache; no claim under verification depends on the purged fraction for
positive decay times).  Returns whether the epoch advanced. -/
def pa_maybe_decay_purge (s : PaShard) (t : Tier) (now : Nat)
    (setting : PaDecayPurgeSetting) : PaShard × Bool :=
  let ms := decay_ms_read (tierDecay s t)
  if ms ≤ 0 then
    (if ms = 0 then pa_decay_all s t false else s, false)
  else
    if ((tierDecay s t).epoch : Int) + ms ≤ (now : Int) then
      let s2 := setTierEpoch s t now
      (match setting with
        | PaDecayPurgeSetting.never => s2
        | _ => pa_decay_all s2 t false, true)
    else (s, false)


/-- The transition relation of one shard: any public operation of the
coordinator (`pa_alloc`, `pa_expand`, `pa_shrink`, `pa_dalloc`,
`pa_decay_all`, `pa_maybe_decay_purge`), plus drawing a serial number,
with arbitrary arguments. -/
inductive Step : PaShard → PaShard → Prop
  | alloc (s : PaShard) (size : Nat) (os_ok : Bool) :
      Step s (pa_alloc s size os_ok).1
  | expand (s : PaShard) (e : Edata) (new_size : Nat) :
      Step s (pa_expand s e new_size).1
  | shrink (s : PaShard) (e : Edata) (new_size : Nat) :
      Step s (pa_shrink s e new_size).1
  | dalloc (s : PaShard) (e : Edata) :
      Step s (pa_dalloc s e).1
  | decay_all (s : PaShard) (t : Tier) (fully : Bool) :
      Step s (pa_decay_all s t fully)
  | maybe_decay_purge (s : PaShard) (t : Tier) (now : Nat) (ps : PaDecayPurgeSetting) :
      Step s (pa_maybe_decay_purge s t now ps).1
  | extent_sn_next (s : PaShard) :
      Step s (pa_shard_extent_sn_next s).2

/-- A shard state reachable from a freshly initialized shard (any decay
configuration) by public operations. -/
inductive Reachable : PaShard → Prop
  | init (d m : Int) : Reachable (pa_shard_init d m)
  | step {s s2 : PaShard} : Reachable s → Step s s2 → Reachable s2

/-- Two extents' address ranges are disjoint. -/
def edisj (a b : Edata) : Prop :=
  a.base + a.size ≤ b.base ∨ b.base + b.size ≤ a.base

/-- All descriptors a shard is responsible for: active ones (handed out
to callers) and the contents of the three extent caches. -/
def extents (s : PaShard) : List Edata :=
  s.active ++ s.ecache_dirty ++ s.ecache_muzzy ++ s.ecache_retained

/-- The shard invariant: all simultaneously live descriptors (active or
cached) are pairwise disjoint; every such descriptor is nonempty and
lies below the OS cursor; and the active-page counter equals the total
size of the active descriptors. -/
def Inv (s : PaShard) : Prop :=
  (extents s).Pairwise edisj ∧
  (∀ e ∈ extents s, 0 < e.size ∧ e.base + e.size ≤ s.os_next) ∧
  s.nactive = sumBytes s.active

theorem edisj_comm {a b : Edata} (h : edisj a b) : edisj b a := by
  unfold edisj at *; omega

theorem edisj_symmetric : Symmetric edisj := by
  intro a b h; exact edisj_comm h

/-- Disjointness from `f` transfers to any subrange of `f`. -/
theorem edisj_sub {x f g : Edata} (h : edisj x f) (h1 : f.base ≤ g.base)
    (h2 : g.base + g.size ≤ f.base + f.size) : edisj x g := by
  unfold edisj at *; omega

/-- Disjointness from two exactly-abutting extents `e` and `d` transfers
to any extent starting at `e` and ending within `d` (the expanded
descriptor of `pa_expand`); needs `x` nonempty. -/
theorem edisj_join {x e d g : Edata} (hx : 0 < x.size) (hde : d.base = e.base + e.size)
    (he : edisj x e) (hd : edisj x d) (hg : g.base = e.base)
    (hgsz : g.base + g.size ≤ d.base + d.size) : edisj x g := by
  unfold edisj at *; omega

/-- An extent wholly below `n` is disjoint from one wholly at or above
`n` (fresh OS mappings). -/
theorem edisj_fresh {x g : Edata} {n : Nat} (hx : x.base + x.size ≤ n) (hg : n ≤ g.base) :
    edisj x g := by
  unfold edisj; omega

theorem findExtract_some {p : Edata → Bool} {c : List Edata} {f : Edata} {rest : List Edata}
    (h : findExtract p c = some (f, rest)) : p f = true ∧ c.Perm (f :: rest) := by
  induction c generalizing f rest with
  | nil => simp [findExtract] at h
  | cons e tl ih =>
    rw [findExtract] at h
    split at h
    · rename_i hp
      cases h
      exact ⟨hp, List.Perm.refl _⟩
    · rename_i hp
      split at h
      · rename_i q hq
        cases h
        obtain ⟨h1, h2⟩ := ih hq
        exact ⟨h1, (h2.cons e).trans (List.Perm.swap q.1 e q.2)⟩
      · exact absurd h (by simp)

theorem findExtract_eq_none {p : Edata → Bool} {c : List Edata}
    (h : findExtract p c = none) : ∀ e ∈ c, p e = false := by
  induction c with
  | nil => simp
  | cons e tl ih =>
    rw [findExtract] at h
    split at h
    · exact absurd h (by simp)
    · rename_i hp
      split at h
      · exact absurd h (by simp)
      · rename_i hq
        intro x hx
        rcases List.mem_cons.mp hx with hx | hx
        · subst hx; exact Bool.not_eq_true _ ▸ hp
        · exact ih hq x hx

theorem cacheTake_some {sz : Nat} {c : List Edata} {f : Edata} {rest : List Edata}
    (h : cacheTake sz c = some (f, rest)) : sz ≤ f.size ∧ c.Perm (f :: rest) := by
  obtain ⟨h1, h2⟩ := findExtract_some h
  exact ⟨by simpa using h1, h2⟩

theorem cacheTake_eq_none {sz : Nat} {c : List Edata} (h : cacheTake sz c = none) :
    ∀ e ∈ c, e.size < sz := by
  intro e he
  have h2 := findExtract_eq_none h e he
  have h3 : ¬ sz ≤ e.size := by simpa using h2
  omega

theorem takeAdj_some {b need : Nat} {c : List Edata} {d : Edata} {rest : List Edata}
    (h : takeAdj b need c = some (d, rest)) :
    d.base = b ∧ need ≤ d.size ∧ c.Perm (d :: rest) := by
  obtain ⟨h1, h2⟩ := findExtract_some h
  have h3 : d.base = b ∧ need ≤ d.size := by simpa using h1
  exact ⟨h3.1, h3.2, h2⟩

theorem pairwise_edisj_of_perm {l l2 : List Edata} (p : l.Perm l2) (h : l.Pairwise edisj) :
    l2.Pairwise edisj :=
  (p.pairwise_iff @edisj_symmetric).mp h

theorem perm_pull1 (A B C D : List Edata) (x : Edata) :
    ((x :: A) ++ B ++ C ++ D).Perm (x :: (A ++ B ++ C ++ D)) := by
  simp [List.append_assoc]

theorem perm_pull2 (A B C D : List Edata) (x : Edata) :
    (A ++ (x :: B) ++ C ++ D).Perm (x :: (A ++ B ++ C ++ D)) := by
  simpa [List.append_assoc] using @List.perm_middle Edata x A (B ++ C ++ D)

theorem perm_pull3 (A B C D : List Edata) (x : Edata) :
    (A ++ B ++ (x :: C) ++ D).Perm (x :: (A ++ B ++ C ++ D)) := by
  simpa [List.append_assoc] using @List.perm_middle Edata x (A ++ B) (C ++ D)

theorem perm_pull4 (A B C D : List Edata) (x : Edata) :
    (A ++ B ++ C ++ (x :: D)).Perm (x :: (A ++ B ++ C ++ D)) := by
  simpa [List.append_assoc] using @List.perm_middle Edata x (A ++ B ++ C) D

theorem sumBytes_perm {l l2 : List Edata} (p : l.Perm l2) : sumBytes l = sumBytes l2 :=
  (p.map Edata.size).sum_eq

theorem sumBytes_cons (e : Edata) (l : List Edata) :
    sumBytes (e :: l) = e.size + sumBytes l := by
  simp [sumBytes]

/-- Splitting the head extent of a pairwise-disjoint list into a granted
prefix and a remainder tail preserves pairwise disjointness. -/
theorem pairwise_split2 {f : Edata} {K : List Edata} {sz : Nat}
    (hlt : sz < f.size) (hp : (f :: K).Pairwise edisj) :
    ((⟨f.base, sz⟩ : Edata) :: (⟨f.base + sz, f.size - sz⟩ : Edata) :: K).Pairwise edisj := by
  rw [List.pairwise_cons] at hp
  obtain ⟨hf, hK⟩ := hp
  rw [List.pairwise_cons]
  refine ⟨?_, ?_⟩
  · intro b hb
    rcases List.mem_cons.mp hb with hb | hb
    · subst hb
      unfold edisj
      simp only []
      omega
    · exact edisj_comm (edisj_sub (edisj_comm (hf b hb)) (by simp) (by simp; omega))
  · rw [List.pairwise_cons]
    refine ⟨?_, hK⟩
    intro b hb
    exact edisj_comm (edisj_sub (edisj_comm (hf b hb)) (by simp) (by simp; omega))

/-- Granting the whole head extent (exact fit) preserves pairwise
disjointness. -/
theorem pairwise_split1 {f : Edata} {K : List Edata} {sz : Nat} (heq : sz = f.size)
    (hp : (f :: K).Pairwise edisj) :
    ((⟨f.base, sz⟩ : Edata) :: K).Pairwise edisj := by
  subst heq
  exact hp

theorem inv_init (d m : Int) : Inv (pa_shard_init d m) := by
  refine ⟨?_, ?_, ?_⟩ <;> simp [pa_shard_init, extents, sumBytes]

theorem inv_sn_next {s : PaShard} (h : Inv s) : Inv (pa_shard_extent_sn_next s).2 := by
  obtain ⟨h1, h2, h3⟩ := h
  exact ⟨h1, h2, h3⟩

theorem inv_dalloc (s : PaShard) (e : Edata) (h : Inv s) : Inv (pa_dalloc s e).1 := by
  by_cases he : e ∈ s.active
  case neg => simpa [pa_dalloc, he] using h
  case pos =>
  obtain ⟨hpw, hbd, hact⟩ := h
  have hpA : s.active.Perm (e :: s.active.erase e) := List.perm_cons_erase he
  simp only [pa_dalloc, he, if_pos]
  have hperm : (extents s).Perm
      (s.active.erase e ++ (e :: s.ecache_dirty) ++ s.ecache_muzzy ++ s.ecache_retained) := by
    have h3 := ((hpA.append_right s.ecache_dirty).append_right s.ecache_muzzy).append_right
      s.ecache_retained
    have h4 := perm_pull1 (s.active.erase e) s.ecache_dirty s.ecache_muzzy s.ecache_retained e
    have h5 := perm_pull2 (s.active.erase e) s.ecache_dirty s.ecache_muzzy s.ecache_retained e
    exact ((h3.trans h4).trans h5.symm)
  refine ⟨?_, ?_, ?_⟩
  · exact pairwise_edisj_of_perm hperm hpw
  · intro x hx
    have hx2 : x ∈ extents s := hperm.mem_iff.mpr hx
    simpa using hbd x hx2
  · have hsum : sumBytes s.active = e.size + sumBytes (s.active.erase e) := by
      rw [sumBytes_perm hpA, sumBytes_cons]
    simp only []
    omega

theorem inv_shrink (s : PaShard) (e : Edata) (nsz : Nat) (h : Inv s) :
    Inv (pa_shrink s e nsz).1 := by
  by_cases hg : e ∈ s.active ∧ 0 < nsz ∧ nsz < e.size
  case neg => simpa [pa_shrink, hg] using h
  case pos =>
  obtain ⟨he, hn0, hnlt⟩ := hg
  obtain ⟨hpw, hbd, hact⟩ := h
  have hpA : s.active.Perm (e :: s.active.erase e) := List.perm_cons_erase he
  simp only [pa_shrink, he, hn0, hnlt, and_self, if_pos, true_and]
  have hperm : (extents s).Perm
      (e :: (s.active.erase e ++ s.ecache_dirty ++ s.ecache_muzzy ++ s.ecache_retained)) := by
    have h3 := ((hpA.append_right s.ecache_dirty).append_right s.ecache_muzzy).append_right
      s.ecache_retained
    exact h3.trans
      (perm_pull1 (s.active.erase e) s.ecache_dirty s.ecache_muzzy s.ecache_retained e)
  have hperm2 : (((⟨e.base, nsz⟩ : Edata) :: s.active.erase e) ++
      ((⟨e.base + nsz, e.size - nsz⟩ : Edata) :: s.ecache_dirty) ++
      s.ecache_muzzy ++ s.ecache_retained).Perm
      ((⟨e.base, nsz⟩ : Edata) :: (⟨e.base + nsz, e.size - nsz⟩ : Edata) ::
        (s.active.erase e ++ s.ecache_dirty ++ s.ecache_muzzy ++ s.ecache_retained)) := by
    have h6 := perm_pull2 (s.active.erase e) s.ecache_dirty s.ecache_muzzy s.ecache_retained
      (⟨e.base + nsz, e.size - nsz⟩ : Edata)
    have h7 := perm_pull1 (s.active.erase e)
      ((⟨e.base + nsz, e.size - nsz⟩ : Edata) :: s.ecache_dirty) s.ecache_muzzy s.ecache_retained
      (⟨e.base, nsz⟩ : Edata)
    exact h7.trans (h6.cons _)
  refine ⟨?_, ?_, ?_⟩
  · refine pairwise_edisj_of_perm hperm2.symm ?_
    exact pairwise_split2 hnlt (pairwise_edisj_of_perm hperm hpw)
  · intro x hx
    have hx2 := hperm2.mem_iff.mp hx
    rcases List.mem_cons.mp hx2 with hx3 | hx3
    · subst hx3
      have hbe := hbd e (by simp [extents, he])
      simp at hbe ⊢
      omega
    · rcases List.mem_cons.mp hx3 with hx4 | hx4
      · subst hx4
        have hbe := hbd e (by simp [extents, he])
        simp at hbe ⊢
        omega
      · have hx5 : x ∈ extents s := hperm.mem_iff.mpr (List.mem_cons_of_mem _ hx4)
        simpa using hbd x hx5
  · have hsum : sumBytes s.active = e.size + sumBytes (s.active.erase e) := by
      rw [sumBytes_perm hpA, sumBytes_cons]
    have hcons := sumBytes_cons (⟨e.base, nsz⟩ : Edata) (s.active.erase e)
    simp only []
    simp at hcons
    omega

theorem inv_decay_all (s : PaShard) (t : Tier) (fd : Bool) (h : Inv s) :
    Inv (pa_decay_all s t fd) := by
  obtain ⟨hpw, hbd, hact⟩ := h
  cases t <;> cases fd
  · -- dirty, not fully: dirty extents move to the muzzy cache
    refine ⟨?_, ?_, hact⟩
    · simp only [pa_decay_all, Bool.false_eq_true, if_false, extents, List.append_nil,
        List.append_assoc] at *
      exact hpw
    · intro x hx
      simp only [pa_decay_all, Bool.false_eq_true, if_false, extents, List.append_nil,
        List.append_assoc, List.mem_append] at hx hbd ⊢
      have := hbd x
      tauto
  · -- dirty, fully: dirty extents are unmapped
    have hsub : (s.active ++ s.ecache_muzzy ++ s.ecache_retained).Sublist (extents s) := by
      have h1 : s.active.Sublist (s.active ++ s.ecache_dirty) := List.sublist_append_left _ _
      exact (h1.append_right _).append_right _
    refine ⟨?_, ?_, hact⟩
    · simp only [pa_decay_all, if_true, extents, List.append_nil]
      exact hpw.sublist hsub
    · intro x hx
      simp only [pa_decay_all, if_true, extents, List.append_nil] at hx ⊢
      exact hbd x (hsub.subset hx)
  · -- muzzy, not fully: muzzy extents move to the retained cache
    refine ⟨?_, ?_, hact⟩
    · simp only [pa_decay_all, Bool.false_eq_true, if_false, extents, List.append_nil,
        List.append_assoc] at *
      exact hpw
    · intro x hx
      simp only [pa_decay_all, Bool.false_eq_true, if_false, extents, List.append_nil,
        List.append_assoc, List.mem_append] at hx hbd ⊢
      have := hbd x
      tauto
  · -- muzzy, fully: muzzy extents are unmapped
    have hsub : (s.active ++ s.ecache_dirty ++ s.ecache_retained).Sublist (extents s) := by
      have h1 : (s.active ++ s.ecache_dirty).Sublist (s.active ++ s.ecache_dirty ++ s.ecache_muzzy) :=
        List.sublist_append_left _ _
      exact h1.append_right _
    refine ⟨?_, ?_, hact⟩
    · simp only [pa_decay_all, if_true, extents, List.append_nil]
      exact hpw.sublist hsub
    · intro x hx
      simp only [pa_decay_all, if_true, extents, List.append_nil] at hx ⊢
      exact hbd x (hsub.subset hx)

theorem inv_setTierEpoch (s : PaShard) (t : Tier) (n : Nat) (h : Inv s) :
    Inv (setTierEpoch s t n) := by
  obtain ⟨h1, h2, h3⟩ := h
  cases t
  · exact ⟨h1, h2, h3⟩
  · exact ⟨h1, h2, h3⟩

theorem inv_maybe_decay_purge (s : PaShard) (t : Tier) (now : Nat) (ps : PaDecayPurgeSetting)
    (h : Inv s) : Inv (pa_maybe_decay_purge s t now ps).1 := by
  simp only [pa_maybe_decay_purge]
  by_cases h1 : decay_ms_read (tierDecay s t) ≤ 0
  · by_cases h2 : decay_ms_read (tierDecay s t) = 0
    · simp only [h1, h2, if_true, if_pos]
      exact inv_decay_all s t false h
    · simp only [h1, h2, if_pos, if_neg, ite_false]
      exact h
  · by_cases h3 : ((tierDecay s t).epoch : Int) + decay_ms_read (tierDecay s t) ≤ (now : Int)
    · simp only [h1, h3, if_neg, if_pos, ite_true, ite_false, not_false_iff]
      cases ps
      · exact inv_decay_all _ t false (inv_setTierEpoch s t now h)
      · exact inv_setTierEpoch s t now h
      · exact inv_decay_all _ t false (inv_setTierEpoch s t now h)
    · simp only [h1, h3, if_neg, ite_false]
      exact h

theorem inv_alloc (s : PaShard) (sz : Nat) (ok : Bool) (h : Inv s) :
    Inv (pa_alloc s sz ok).1 := by
  obtain ⟨hpw, hbd, hact⟩ := h
  by_cases hsz : sz = 0
  · simpa [pa_alloc, hsz] using ⟨hpw, hbd, hact⟩
  have hsz0 : 0 < sz := Nat.pos_of_ne_zero hsz
  rw [pa_alloc]
  simp only [hsz, ite_false, if_false]
  cases hd : cacheTake sz s.ecache_dirty with
  | some p =>
    obtain ⟨f, rest⟩ := p
    obtain ⟨hle, hcp⟩ := cacheTake_some hd
    simp only []
    have hfmem : f ∈ extents s := by
      have hf2 : f ∈ s.ecache_dirty := hcp.mem_iff.mpr (List.mem_cons_self _ _)
      simp [extents, hf2]
    have hperm : (extents s).Perm
        (f :: (s.active ++ rest ++ s.ecache_muzzy ++ s.ecache_retained)) := by
      have h3 := ((hcp.append_left s.active).append_right s.ecache_muzzy).append_right
        s.ecache_retained
      exact h3.trans (perm_pull2 s.active rest s.ecache_muzzy s.ecache_retained f)
    have hpw2 := pairwise_edisj_of_perm hperm hpw
    have hbf := hbd f hfmem
    by_cases hlt : sz < f.size
    · simp only [hlt, ite_true]
      have hperm2 : ((((⟨f.base, sz⟩ : Edata) :: s.active) ++
          ((⟨f.base + sz, f.size - sz⟩ : Edata) :: rest)) ++ s.ecache_muzzy ++
          s.ecache_retained).Perm
          ((⟨f.base, sz⟩ : Edata) :: (⟨f.base + sz, f.size - sz⟩ : Edata) ::
            (s.active ++ rest ++ s.ecache_muzzy ++ s.ecache_retained)) := by
        have h7 := perm_pull1 s.active ((⟨f.base + sz, f.size - sz⟩ : Edata) :: rest)
          s.ecache_muzzy s.ecache_retained (⟨f.base, sz⟩ : Edata)
        have h6 := perm_pull2 s.active rest s.ecache_muzzy s.ecache_retained
          (⟨f.base + sz, f.size - sz⟩ : Edata)
        exact h7.trans (h6.cons _)
      refine ⟨?_, ?_, ?_⟩
      · exact pairwise_edisj_of_perm hperm2.symm (pairwise_split2 hlt hpw2)
      · intro x hx
        have hx2 := hperm2.mem_iff.mp hx
        rcases List.mem_cons.mp hx2 with hx3 | hx3
        · subst hx3
          refine ⟨hsz0, ?_⟩
          show f.base + sz ≤ s.os_next
          omega
        · rcases List.mem_cons.mp hx3 with hx4 | hx4
          · subst hx4
            refine ⟨by show 0 < f.size - sz; omega, ?_⟩
            show f.base + sz + (f.size - sz) ≤ s.os_next
            omega
          · have hx5 : x ∈ extents s := hperm.mem_iff.mpr (List.mem_cons_of_mem _ hx4)
            simpa using hbd x hx5
      · show s.nactive + sz = sumBytes ((⟨f.base, sz⟩ : Edata) :: s.active)
        rw [sumBytes_cons]
        show s.nactive + sz = sz + sumBytes s.active
        omega
    · simp only [hlt, ite_false]
      have heq : sz = f.size := by omega
      have hperm2 : ((((⟨f.base, sz⟩ : Edata) :: s.active) ++ rest) ++ s.ecache_muzzy ++
          s.ecache_retained).Perm
          ((⟨f.base, sz⟩ : Edata) :: (s.active ++ rest ++ s.ecache_muzzy ++ s.ecache_retained)) :=
        perm_pull1 s.active rest s.ecache_muzzy s.ecache_retained (⟨f.base, sz⟩ : Edata)
      refine ⟨?_, ?_, ?_⟩
      · exact pairwise_edisj_of_perm hperm2.symm (pairwise_split1 heq hpw2)
      · intro x hx
        have hx2 := hperm2.mem_iff.mp hx
        rcases List.mem_cons.mp hx2 with hx3 | hx3
        · subst hx3
          refine ⟨hsz0, ?_⟩
          show f.base + sz ≤ s.os_next
          omega
        · have hx5 : x ∈ extents s := hperm.mem_iff.mpr (List.mem_cons_of_mem _ hx3)
          simpa using hbd x hx5
      · show s.nactive + sz = sumBytes ((⟨f.base, sz⟩ : Edata) :: s.active)
        rw [sumBytes_cons]
        show s.nactive + sz = sz + sumBytes s.active
        omega
  | none =>
  cases hm : cacheTake sz s.ecache_muzzy with
  | some p =>
    obtain ⟨f, rest⟩ := p
    obtain ⟨hle, hcp⟩ := cacheTake_some hm
    simp only []
    have hfmem : f ∈ extents s := by
      have hf2 : f ∈ s.ecache_muzzy := hcp.mem_iff.mpr (List.mem_cons_self _ _)
      simp [extents, hf2]
    have hperm : (extents s).Perm
        (f :: (s.active ++ s.ecache_dirty ++ rest ++ s.ecache_retained)) := by
      have h3 := ((hcp.append_left (s.active ++ s.ecache_dirty)).append_right
        s.ecache_retained)
      have h4 : (extents s).Perm ((s.active ++ s.ecache_dirty ++ (f :: rest)) ++
          s.ecache_retained) := by
        simpa [extents, List.append_assoc] using h3
      exact h4.trans (perm_pull3 s.active s.ecache_dirty rest s.ecache_retained f)
    have hpw2 := pairwise_edisj_of_perm hperm hpw
    have hbf := hbd f hfmem
    by_cases hlt : sz < f.size
    · simp only [hlt, ite_true]
      have hperm2 : ((((⟨f.base, sz⟩ : Edata) :: s.active) ++ s.ecache_dirty ++
          ((⟨f.base + sz, f.size - sz⟩ : Edata) :: rest)) ++ s.ecache_retained).Perm
          ((⟨f.base, sz⟩ : Edata) :: (⟨f.base + sz, f.size - sz⟩ : Edata) ::
            (s.active ++ s.ecache_dirty ++ rest ++ s.ecache_retained)) := by
        have h7 := perm_pull1 s.active s.ecache_dirty
          ((⟨f.base + sz, f.size - sz⟩ : Edata) :: rest) s.ecache_retained (⟨f.base, sz⟩ : Edata)
        have h6 := perm_pull3 s.active s.ecache_dirty rest s.ecache_retained
          (⟨f.base + sz, f.size - sz⟩ : Edata)
        exact h7.trans (h6.cons _)
      refine ⟨?_, ?_, ?_⟩
      · exact pairwise_edisj_of_perm hperm2.symm (pairwise_split2 hlt hpw2)
      · intro x hx
        have hx2 := hperm2.mem_iff.mp hx
        rcases List.mem_cons.mp hx2 with hx3 | hx3
        · subst hx3
          refine ⟨hsz0, ?_⟩
          show f.base + sz ≤ s.os_next
          omega
        · rcases List.mem_cons.mp hx3 with hx4 | hx4
          · subst hx4
            refine ⟨by show 0 < f.size - sz; omega, ?_⟩
            show f.base + sz + (f.size - sz) ≤ s.os_next
            omega
          · have hx5 : x ∈ extents s := hperm.mem_iff.mpr (List.mem_cons_of_mem _ hx4)
            simpa using hbd x hx5
      · show s.nactive + sz = sumBytes ((⟨f.base, sz⟩ : Edata) :: s.active)
        rw [sumBytes_cons]
        show s.nactive + sz = sz + sumBytes s.active
        omega
    · simp only [hlt, ite_false]
      have heq : sz = f.size := by omega
      have hperm2 : ((((⟨f.base, sz⟩ : Edata) :: s.active) ++ s.ecache_dirty ++ rest) ++
          s.ecache_retained).Perm
          ((⟨f.base, sz⟩ : Edata) ::
            (s.active ++ s.ecache_dirty ++ rest ++ s.ecache_retained)) :=
        perm_pull1 s.active s.ecache_dirty rest s.ecache_retained (⟨f.base, sz⟩ : Edata)
      refine ⟨?_, ?_, ?_⟩
      · exact pairwise_edisj_of_perm hperm2.symm (pairwise_split1 heq hpw2)
      · intro x hx
        have hx2 := hperm2.mem_iff.mp hx
        rcases List.mem_cons.mp hx2 with hx3 | hx3
        · subst hx3
          refine ⟨hsz0, ?_⟩
          show f.base + sz ≤ s.os_next
          omega
        · have hx5 : x ∈ extents s := hperm.mem_iff.mpr (List.mem_cons_of_mem _ hx3)
          simpa using hbd x hx5
      · show s.nactive + sz = sumBytes ((⟨f.base, sz⟩ : Edata) :: s.active)
        rw [sumBytes_cons]
        show s.nactive + sz = sz + sumBytes s.active
        omega
  | none =>
  cases hr : cacheTake sz s.ecache_retained with
  | some p =>
    obtain ⟨f, rest⟩ := p
    obtain ⟨hle, hcp⟩ := cacheTake_some hr
    simp only []
    have hfmem : f ∈ extents s := by
      have hf2 : f ∈ s.ecache_retained := hcp.mem_iff.mpr (List.mem_cons_self _ _)
      simp [extents, hf2]
    have hperm : (extents s).Perm
        (f :: (s.active ++ s.ecache_dirty ++ s.ecache_muzzy ++ rest)) := by
      have h3 := hcp.append_left (s.active ++ s.ecache_dirty ++ s.ecache_muzzy)
      have h4 : (extents s).Perm (s.active ++ s.ecache_dirty ++ s.ecache_muzzy ++
          (f :: rest)) := by
        simpa [extents, List.append_assoc] using h3
      exact h4.trans (perm_pull4 s.active s.ecache_dirty s.ecache_muzzy rest f)
    have hpw2 := pairwise_edisj_of_perm hperm hpw
    have hbf := hbd f hfmem
    by_cases hlt : sz < f.size
    · simp only [hlt, ite_true]
      have hperm2 : ((((⟨f.base, sz⟩ : Edata) :: s.active) ++ s.ecache_dirty ++
          s.ecache_muzzy) ++ ((⟨f.base + sz, f.size - sz⟩ : Edata) :: rest)).Perm
          ((⟨f.base, sz⟩ : Edata) :: (⟨f.base + sz, f.size - sz⟩ : Edata) ::
            (s.active ++ s.ecache_dirty ++ s.ecache_muzzy ++ rest)) := by
        have h7 := perm_pull1 s.active s.ecache_dirty s.ecache_muzzy
          ((⟨f.base + sz, f.size - sz⟩ : Edata) :: rest) (⟨f.base, sz⟩ : Edata)
        have h6 := perm_pull4 s.active s.ecache_dirty s.ecache_muzzy rest
          (⟨f.base + sz, f.size - sz⟩ : Edata)
        exact h7.trans (h6.cons _)
      refine ⟨?_, ?_, ?_⟩
      · exact pairwise_edisj_of_perm hperm2.symm (pairwise_split2 hlt hpw2)
      · intro x hx
        have hx2 := hperm2.mem_iff.mp hx
        rcases List.mem_cons.mp hx2 with hx3 | hx3
        · subst hx3
          refine ⟨hsz0, ?_⟩
          show f.base + sz ≤ s.os_next
          omega
        · rcases List.mem_cons.mp hx3 with hx4 | hx4
          · subst hx4
            refine ⟨by show 0 < f.size - sz; omega, ?_⟩
            show f.base + sz + (f.size - sz) ≤ s.os_next
            omega
          · have hx5 : x ∈ extents s := hperm.mem_iff.mpr (List.mem_cons_of_mem _ hx4)
            simpa using hbd x hx5
      · show s.nactive + sz = sumBytes ((⟨f.base, sz⟩ : Edata) :: s.active)
        rw [sumBytes_cons]
        show s.nactive + sz = sz + sumBytes s.active
        omega
    · simp only [hlt, ite_false]
      have heq : sz = f.size := by omega
      have hperm2 : ((((⟨f.base, sz⟩ : Edata) :: s.active) ++ s.ecache_dirty ++
          s.ecache_muzzy) ++ rest).Perm
          ((⟨f.base, sz⟩ : Edata) ::
            (s.active ++ s.ecache_dirty ++ s.ecache_muzzy ++ rest)) :=
        perm_pull1 s.active s.ecache_dirty s.ecache_muzzy rest (⟨f.base, sz⟩ : Edata)
      refine ⟨?_, ?_, ?_⟩
      · exact pairwise_edisj_of_perm hperm2.symm (pairwise_split1 heq hpw2)
      · intro x hx
        have hx2 := hperm2.mem_iff.mp hx
        rcases List.mem_cons.mp hx2 with hx3 | hx3
        · subst hx3
          refine ⟨hsz0, ?_⟩
          show f.base + sz ≤ s.os_next
          omega
        · have hx5 : x ∈ extents s := hperm.mem_iff.mpr (List.mem_cons_of_mem _ hx3)
          simpa using hbd x hx5
      · show s.nactive + sz = sumBytes ((⟨f.base, sz⟩ : Edata) :: s.active)
        rw [sumBytes_cons]
        show s.nactive + sz = sz + sumBytes s.active
        omega
  | none =>
  cases ok with
  | false =>
    simp only [Bool.false_eq_true, if_false, ite_false]
    exact ⟨hpw, hbd, hact⟩
  | true =>
    simp only [if_true, ite_true]
    have hmsz : sz ≤ max sz s.ecache_grow := le_max_left _ _
    by_cases hlt : sz < max sz s.ecache_grow
    · simp only [hlt, ite_true]
      have hperm2 : ((((⟨s.os_next, sz⟩ : Edata) :: s.active) ++ s.ecache_dirty ++
          s.ecache_muzzy) ++
          ((⟨s.os_next + sz, max sz s.ecache_grow - sz⟩ : Edata) :: s.ecache_retained)).Perm
          ((⟨s.os_next, sz⟩ : Edata) ::
            (⟨s.os_next + sz, max sz s.ecache_grow - sz⟩ : Edata) :: extents s) := by
        have h7 := perm_pull1 s.active s.ecache_dirty s.ecache_muzzy
          ((⟨s.os_next + sz, max sz s.ecache_grow - sz⟩ : Edata) :: s.ecache_retained)
          (⟨s.os_next, sz⟩ : Edata)
        have h6 := perm_pull4 s.active s.ecache_dirty s.ecache_muzzy s.ecache_retained
          (⟨s.os_next + sz, max sz s.ecache_grow - sz⟩ : Edata)
        exact h7.trans (h6.cons _)
      refine ⟨?_, ?_, ?_⟩
      · refine pairwise_edisj_of_perm hperm2.symm ?_
        rw [List.pairwise_cons]
        refine ⟨?_, ?_⟩
        · intro b hb
          rcases List.mem_cons.mp hb with hb | hb
          · subst hb
            left
            show s.os_next + sz ≤ s.os_next + sz
            omega
          · exact edisj_comm (edisj_fresh (hbd b hb).2
              (by show s.os_next ≤ s.os_next; omega))
        · rw [List.pairwise_cons]
          refine ⟨?_, hpw⟩
          intro b hb
          exact edisj_comm (edisj_fresh (hbd b hb).2
              (by show s.os_next ≤ s.os_next + sz; omega))
      · intro x hx
        have hx2 := hperm2.mem_iff.mp hx
        rcases List.mem_cons.mp hx2 with hx3 | hx3
        · subst hx3
          refine ⟨hsz0, ?_⟩
          show s.os_next + sz ≤ s.os_next + max sz s.ecache_grow
          omega
        · rcases List.mem_cons.mp hx3 with hx4 | hx4
          · subst hx4
            refine ⟨by show 0 < max sz s.ecache_grow - sz; omega, ?_⟩
            show s.os_next + sz + (max sz s.ecache_grow - sz) ≤
              s.os_next + max sz s.ecache_grow
            omega
          · obtain ⟨hb1, hb2⟩ := hbd x hx4
            refine ⟨hb1, ?_⟩
            show x.base + x.size ≤ s.os_next + max sz s.ecache_grow
            omega
      · show s.nactive + sz = sumBytes ((⟨s.os_next, sz⟩ : Edata) :: s.active)
        rw [sumBytes_cons]
        show s.nactive + sz = sz + sumBytes s.active
        omega
    · simp only [hlt, ite_false]
      have hperm2 : ((((⟨s.os_next, sz⟩ : Edata) :: s.active) ++ s.ecache_dirty ++
          s.ecache_muzzy) ++ s.ecache_retained).Perm
          ((⟨s.os_next, sz⟩ : Edata) :: extents s) :=
        perm_pull1 s.active s.ecache_dirty s.ecache_muzzy s.ecache_retained
          (⟨s.os_next, sz⟩ : Edata)
      refine ⟨?_, ?_, ?_⟩
      · refine pairwise_edisj_of_perm hperm2.symm ?_
        rw [List.pairwise_cons]
        refine ⟨?_, hpw⟩
        intro b hb
        exact edisj_comm (edisj_fresh (hbd b hb).2
            (by show s.os_next ≤ s.os_next; omega))
      · intro x hx
        have hx2 := hperm2.mem_iff.mp hx
        rcases List.mem_cons.mp hx2 with hx3 | hx3
        · subst hx3
          refine ⟨hsz0, ?_⟩
          show s.os_next + sz ≤ s.os_next + max sz s.ecache_grow
          omega
        · obtain ⟨hb1, hb2⟩ := hbd x hx3
          refine ⟨hb1, ?_⟩
          show x.base + x.size ≤ s.os_next + max sz s.ecache_grow
          omega
      · show s.nactive + sz = sumBytes ((⟨s.os_next, sz⟩ : Edata) :: s.active)
        rw [sumBytes_cons]
        show s.nactive + sz = sz + sumBytes s.active
        omega

/-- Expanding `e` into the abutting donor `d` (donor fully consumed)
preserves pairwise disjointness. -/
theorem pairwise_expand1 {e d : Edata} {K : List Edata} {nsz : Nat}
    (hlt : e.size < nsz) (hdb : d.base = e.base + e.size) (hnd : nsz - e.size ≤ d.size)
    (hpos : ∀ x ∈ K, 0 < x.size)
    (hp : (e :: d :: K).Pairwise edisj) :
    ((⟨e.base, nsz⟩ : Edata) :: K).Pairwise edisj := by
  rw [List.pairwise_cons] at hp
  obtain ⟨heall, hp2⟩ := hp
  rw [List.pairwise_cons] at hp2
  obtain ⟨hdall, hK⟩ := hp2
  rw [List.pairwise_cons]
  refine ⟨?_, hK⟩
  intro x hx
  refine edisj_comm (edisj_join (hpos x hx) hdb
    (edisj_comm (heall x (List.mem_cons_of_mem _ hx))) (edisj_comm (hdall x hx)) rfl ?_)
  show e.base + nsz ≤ d.base + d.size
  omega

/-- Expanding `e` into the abutting donor `d` (donor shrunk from the
front) preserves pairwise disjointness. -/
theorem pairwise_expand2 {e d : Edata} {K : List Edata} {nsz : Nat}
    (hlt : e.size < nsz) (hdb : d.base = e.base + e.size) (hdlt : nsz - e.size < d.size)
    (hpos : ∀ x ∈ K, 0 < x.size)
    (hp : (e :: d :: K).Pairwise edisj) :
    ((⟨e.base, nsz⟩ : Edata) ::
      (⟨d.base + (nsz - e.size), d.size - (nsz - e.size)⟩ : Edata) :: K).Pairwise edisj := by
  rw [List.pairwise_cons] at hp
  obtain ⟨heall, hp2⟩ := hp
  rw [List.pairwise_cons] at hp2
  obtain ⟨hdall, hK⟩ := hp2
  rw [List.pairwise_cons]
  refine ⟨?_, ?_⟩
  · intro x hx
    rcases List.mem_cons.mp hx with hx2 | hx2
    · subst hx2
      left
      show e.base + nsz ≤ d.base + (nsz - e.size)
      omega
    · refine edisj_comm (edisj_join (hpos x hx2) hdb
        (edisj_comm (heall x (List.mem_cons_of_mem _ hx2))) (edisj_comm (hdall x hx2)) rfl ?_)
      show e.base + nsz ≤ d.base + d.size
      omega
  · rw [List.pairwise_cons]
    refine ⟨?_, hK⟩
    intro x hx
    refine edisj_comm (edisj_sub (edisj_comm (hdall x hx)) ?_ ?_)
    · show d.base ≤ d.base + (nsz - e.size)
      omega
    · show d.base + (nsz - e.size) + (d.size - (nsz - e.size)) ≤ d.base + d.size
      omega

theorem inv_expand (s : PaShard) (e : Edata) (nsz : Nat) (h : Inv s) :
    Inv (pa_expand s e nsz).1 := by
  obtain ⟨hpw, hbd, hact⟩ := h
  by_cases hg : e ∈ s.active ∧ e.size < nsz
  case neg => simpa [pa_expand, hg] using ⟨hpw, hbd, hact⟩
  obtain ⟨he, hlt⟩ := hg
  have hpA : s.active.Perm (e :: s.active.erase e) := List.perm_cons_erase he
  have hemem : e ∈ extents s := by simp [extents, he]
  have hbe := hbd e hemem
  have hsumA : sumBytes s.active = e.size + sumBytes (s.active.erase e) := by
    rw [sumBytes_perm hpA, sumBytes_cons]
  cases hr : takeAdj (e.base + e.size) (nsz - e.size) s.ecache_retained with
  | some p =>
    obtain ⟨d, rest⟩ := p
    obtain ⟨hdb, hnd, hRp⟩ := takeAdj_some hr
    have hdmem : d ∈ extents s := by
      have hd2 : d ∈ s.ecache_retained := hRp.mem_iff.mpr (List.mem_cons_self _ _)
      simp [extents, hd2]
    have hbdd := hbd d hdmem
    simp only [pa_expand, he, hlt, and_self, if_true, hr]
    have hKperm : (extents s).Perm (e :: d ::
        (s.active.erase e ++ s.ecache_dirty ++ s.ecache_muzzy ++ rest)) := by
      have h3 := ((hpA.append_right s.ecache_dirty).append_right s.ecache_muzzy).append_right
        s.ecache_retained
      have h4 := perm_pull1 (s.active.erase e) s.ecache_dirty s.ecache_muzzy s.ecache_retained e
      have h5 := hRp.append_left (s.active.erase e ++ s.ecache_dirty ++ s.ecache_muzzy)
      have h6 := perm_pull4 (s.active.erase e) s.ecache_dirty s.ecache_muzzy rest d
      exact (h3.trans h4).trans ((h5.trans h6).cons e)
    have hpw2 := pairwise_edisj_of_perm hKperm hpw
    have hpos : ∀ x ∈ s.active.erase e ++ s.ecache_dirty ++ s.ecache_muzzy ++ rest,
        0 < x.size := by
      intro x hx
      exact (hbd x (hKperm.mem_iff.mpr
        (List.mem_cons_of_mem _ (List.mem_cons_of_mem _ hx)))).1
    by_cases hdlt : nsz - e.size < d.size
    · simp only [donorRest, hdlt, ite_true]
      have hperm2 : ((((⟨e.base, nsz⟩ : Edata) :: s.active.erase e) ++ s.ecache_dirty ++
          s.ecache_muzzy) ++
          ((⟨d.base + (nsz - e.size), d.size - (nsz - e.size)⟩ : Edata) :: rest)).Perm
          ((⟨e.base, nsz⟩ : Edata) ::
            (⟨d.base + (nsz - e.size), d.size - (nsz - e.size)⟩ : Edata) ::
            (s.active.erase e ++ s.ecache_dirty ++ s.ecache_muzzy ++ rest)) := by
        have h7 := perm_pull1 (s.active.erase e) s.ecache_dirty s.ecache_muzzy
          ((⟨d.base + (nsz - e.size), d.size - (nsz - e.size)⟩ : Edata) :: rest)
          (⟨e.base, nsz⟩ : Edata)
        have h6 := perm_pull4 (s.active.erase e) s.ecache_dirty s.ecache_muzzy rest
          (⟨d.base + (nsz - e.size), d.size - (nsz - e.size)⟩ : Edata)
        exact h7.trans (h6.cons _)
      refine ⟨?_, ?_, ?_⟩
      · exact pairwise_edisj_of_perm hperm2.symm (pairwise_expand2 hlt hdb hdlt hpos hpw2)
      · intro x hx
        have hx2 := hperm2.mem_iff.mp hx
        rcases List.mem_cons.mp hx2 with hx3 | hx3
        · subst hx3
          refine ⟨by show 0 < nsz; omega, ?_⟩
          show e.base + nsz ≤ s.os_next
          omega
        · rcases List.mem_cons.mp hx3 with hx4 | hx4
          · subst hx4
            refine ⟨by show 0 < d.size - (nsz - e.size); omega, ?_⟩
            show d.base + (nsz - e.size) + (d.size - (nsz - e.size)) ≤ s.os_next
            omega
          · have hx5 : x ∈ extents s := hKperm.mem_iff.mpr
              (List.mem_cons_of_mem _ (List.mem_cons_of_mem _ hx4))
            simpa using hbd x hx5
      · show s.nactive + (nsz - e.size) =
          sumBytes ((⟨e.base, nsz⟩ : Edata) :: s.active.erase e)
        rw [sumBytes_cons]
        show s.nactive + (nsz - e.size) = nsz + sumBytes (s.active.erase e)
        omega
    · simp only [donorRest, hdlt, ite_false]
      have hperm2 : ((((⟨e.base, nsz⟩ : Edata) :: s.active.erase e) ++ s.ecache_dirty ++
          s.ecache_muzzy) ++ rest).Perm
          ((⟨e.base, nsz⟩ : Edata) ::
            (s.active.erase e ++ s.ecache_dirty ++ s.ecache_muzzy ++ rest)) :=
        perm_pull1 (s.active.erase e) s.ecache_dirty s.ecache_muzzy rest (⟨e.base, nsz⟩ : Edata)
      refine ⟨?_, ?_, ?_⟩
      · exact pairwise_edisj_of_perm hperm2.symm (pairwise_expand1 hlt hdb hnd hpos hpw2)
      · intro x hx
        have hx2 := hperm2.mem_iff.mp hx
        rcases List.mem_cons.mp hx2 with hx3 | hx3
        · subst hx3
          refine ⟨by show 0 < nsz; omega, ?_⟩
          show e.base + nsz ≤ s.os_next
          omega
        · have hx5 : x ∈ extents s := hKperm.mem_iff.mpr
            (List.mem_cons_of_mem _ (List.mem_cons_of_mem _ hx3))
          simpa using hbd x hx5
      · show s.nactive + (nsz - e.size) =
          sumBytes ((⟨e.base, nsz⟩ : Edata) :: s.active.erase e)
        rw [sumBytes_cons]
        show s.nactive + (nsz - e.size) = nsz + sumBytes (s.active.erase e)
        omega
  | none =>
  cases hm : takeAdj (e.base + e.size) (nsz - e.size) s.ecache_muzzy with
  | some p =>
    obtain ⟨d, rest⟩ := p
    obtain ⟨hdb, hnd, hMp⟩ := takeAdj_some hm
    have hdmem : d ∈ extents s := by
      have hd2 : d ∈ s.ecache_muzzy := hMp.mem_iff.mpr (List.mem_cons_self _ _)
      simp [extents, hd2]
    have hbdd := hbd d hdmem
    simp only [pa_expand, he, hlt, and_self, if_true, hr, hm]
    have hKperm : (extents s).Perm (e :: d ::
        (s.active.erase e ++ s.ecache_dirty ++ rest ++ s.ecache_retained)) := by
      have h3 := ((hpA.append_right s.ecache_dirty).append_right s.ecache_muzzy).append_right
        s.ecache_retained
      have h4 := perm_pull1 (s.active.erase e) s.ecache_dirty s.ecache_muzzy s.ecache_retained e
      have h5 := ((hMp.append_left (s.active.erase e ++ s.ecache_dirty)).append_right
        s.ecache_retained)
      have h6 := perm_pull3 (s.active.erase e) s.ecache_dirty rest s.ecache_retained d
      exact (h3.trans h4).trans ((h5.trans h6).cons e)
    have hpw2 := pairwise_edisj_of_perm hKperm hpw
    have hpos : ∀ x ∈ s.active.erase e ++ s.ecache_dirty ++ rest ++ s.ecache_retained,
        0 < x.size := by
      intro x hx
      exact (hbd x (hKperm.mem_iff.mpr
        (List.mem_cons_of_mem _ (List.mem_cons_of_mem _ hx)))).1
    by_cases hdlt : nsz - e.size < d.size
    · simp only [donorRest, hdlt, ite_true]
      have hperm2 : ((((⟨e.base, nsz⟩ : Edata) :: s.active.erase e) ++ s.ecache_dirty ++
          ((⟨d.base + (nsz - e.size), d.size - (nsz - e.size)⟩ : Edata) :: rest)) ++
          s.ecache_retained).Perm
          ((⟨e.base, nsz⟩ : Edata) ::
            (⟨d.base + (nsz - e.size), d.size - (nsz - e.size)⟩ : Edata) ::
            (s.active.erase e ++ s.ecache_dirty ++ rest ++ s.ecache_retained)) := by
        have h7 := perm_pull1 (s.active.erase e) s.ecache_dirty
          ((⟨d.base + (nsz - e.size), d.size - (nsz - e.size)⟩ : Edata) :: rest)
          s.ecache_retained (⟨e.base, nsz⟩ : Edata)
        have h6 := perm_pull3 (s.active.erase e) s.ecache_dirty rest s.ecache_retained
          (⟨d.base + (nsz - e.size), d.size - (nsz - e.size)⟩ : Edata)
        exact h7.trans (h6.cons _)
      refine ⟨?_, ?_, ?_⟩
      · exact pairwise_edisj_of_perm hperm2.symm (pairwise_expand2 hlt hdb hdlt hpos hpw2)
      · intro x hx
        have hx2 := hperm2.mem_iff.mp hx
        rcases List.mem_cons.mp hx2 with hx3 | hx3
        · subst hx3
          refine ⟨by show 0 < nsz; omega, ?_⟩
          show e.base + nsz ≤ s.os_next
          omega
        · rcases List.mem_cons.mp hx3 with hx4 | hx4
          · subst hx4
            refine ⟨by show 0 < d.size - (nsz - e.size); omega, ?_⟩
            show d.base + (nsz - e.size) + (d.size - (nsz - e.size)) ≤ s.os_next
            omega
          · have hx5 : x ∈ extents s := hKperm.mem_iff.mpr
              (List.mem_cons_of_mem _ (List.mem_cons_of_mem _ hx4))
            simpa using hbd x hx5
      · show s.nactive + (nsz - e.size) =
          sumBytes ((⟨e.base, nsz⟩ : Edata) :: s.active.erase e)
        rw [sumBytes_cons]
        show s.nactive + (nsz - e.size) = nsz + sumBytes (s.active.erase e)
        omega
    · simp only [donorRest, hdlt, ite_false]
      have hperm2 : ((((⟨e.base, nsz⟩ : Edata) :: s.active.erase e) ++ s.ecache_dirty ++
          rest) ++ s.ecache_retained).Perm
          ((⟨e.base, nsz⟩ : Edata) ::
            (s.active.erase e ++ s.ecache_dirty ++ rest ++ s.ecache_retained)) :=
        perm_pull1 (s.active.erase e) s.ecache_dirty rest s.ecache_retained
          (⟨e.base, nsz⟩ : Edata)
      refine ⟨?_, ?_, ?_⟩
      · exact pairwise_edisj_of_perm hperm2.symm (pairwise_expand1 hlt hdb hnd hpos hpw2)
      · intro x hx
        have hx2 := hperm2.mem_iff.mp hx
        rcases List.mem_cons.mp hx2 with hx3 | hx3
        · subst hx3
          refine ⟨by show 0 < nsz; omega, ?_⟩
          show e.base + nsz ≤ s.os_next
          omega
        · have hx5 : x ∈ extents s := hKperm.mem_iff.mpr
            (List.mem_cons_of_mem _ (List.mem_cons_of_mem _ hx3))
          simpa using hbd x hx5
      · show s.nactive + (nsz - e.size) =
          sumBytes ((⟨e.base, nsz⟩ : Edata) :: s.active.erase e)
        rw [sumBytes_cons]
        show s.nactive + (nsz - e.size) = nsz + sumBytes (s.active.erase e)
        omega
  | none =>
  cases hd : takeAdj (e.base + e.size) (nsz - e.size) s.ecache_dirty with
  | some p =>
    obtain ⟨d, rest⟩ := p
    obtain ⟨hdb, hnd, hDp⟩ := takeAdj_some hd
    have hdmem : d ∈ extents s := by
      have hd2 : d ∈ s.ecache_dirty := hDp.mem_iff.mpr (List.mem_cons_self _ _)
      simp [extents, hd2]
    have hbdd := hbd d hdmem
    simp only [pa_expand, he, hlt, and_self, if_true, hr, hm, hd]
    have hKperm : (extents s).Perm (e :: d ::
        (s.active.erase e ++ rest ++ s.ecache_muzzy ++ s.ecache_retained)) := by
      have h3 := ((hpA.append_right s.ecache_dirty).append_right s.ecache_muzzy).append_right
        s.ecache_retained
      have h4 := perm_pull1 (s.active.erase e) s.ecache_dirty s.ecache_muzzy s.ecache_retained e
      have h5 := (((hDp.append_left (s.active.erase e)).append_right
        s.ecache_muzzy).append_right s.ecache_retained)
      have h6 := perm_pull2 (s.active.erase e) rest s.ecache_muzzy s.ecache_retained d
      exact (h3.trans h4).trans ((h5.trans h6).cons e)
    have hpw2 := pairwise_edisj_of_perm hKperm hpw
    have hpos : ∀ x ∈ s.active.erase e ++ rest ++ s.ecache_muzzy ++ s.ecache_retained,
        0 < x.size := by
      intro x hx
      exact (hbd x (hKperm.mem_iff.mpr
        (List.mem_cons_of_mem _ (List.mem_cons_of_mem _ hx)))).1
    by_cases hdlt : nsz - e.size < d.size
    · simp only [donorRest, hdlt, ite_true]
      have hperm2 : ((((⟨e.base, nsz⟩ : Edata) :: s.active.erase e) ++
          ((⟨d.base + (nsz - e.size), d.size - (nsz - e.size)⟩ : Edata) :: rest) ++
          s.ecache_muzzy) ++ s.ecache_retained).Perm
          ((⟨e.base, nsz⟩ : Edata) ::
            (⟨d.base + (nsz - e.size), d.size - (nsz - e.size)⟩ : Edata) ::
            (s.active.erase e ++ rest ++ s.ecache_muzzy ++ s.ecache_retained)) := by
        have h7 := perm_pull1 (s.active.erase e)
          ((⟨d.base + (nsz - e.size), d.size - (nsz - e.size)⟩ : Edata) :: rest)
          s.ecache_muzzy s.ecache_retained (⟨e.base, nsz⟩ : Edata)
        have h6 := perm_pull2 (s.active.erase e) rest s.ecache_muzzy s.ecache_retained
          (⟨d.base + (nsz - e.size), d.size - (nsz - e.size)⟩ : Edata)
        exact h7.trans (h6.cons _)
      refine ⟨?_, ?_, ?_⟩
      · exact pairwise_edisj_of_perm hperm2.symm (pairwise_expand2 hlt hdb hdlt hpos hpw2)
      · intro x hx
        have hx2 := hperm2.mem_iff.mp hx
        rcases List.mem_cons.mp hx2 with hx3 | hx3
        · subst hx3
          refine ⟨by show 0 < nsz; omega, ?_⟩
          show e.base + nsz ≤ s.os_next
          omega
        · rcases List.mem_cons.mp hx3 with hx4 | hx4
          · subst hx4
            refine ⟨by show 0 < d.size - (nsz - e.size); omega, ?_⟩
            show d.base + (nsz - e.size) + (d.size - (nsz - e.size)) ≤ s.os_next
            omega
          · have hx5 : x ∈ extents s := hKperm.mem_iff.mpr
              (List.mem_cons_of_mem _ (List.mem_cons_of_mem _ hx4))
            simpa using hbd x hx5
      · show s.nactive + (nsz - e.size) =
          sumBytes ((⟨e.base, nsz⟩ : Edata) :: s.active.erase e)
        rw [sumBytes_cons]
        show s.nactive + (nsz - e.size) = nsz + sumBytes (s.active.erase e)
        omega
    · simp only [donorRest, hdlt, ite_false]
      have hperm2 : ((((⟨e.base, nsz⟩ : Edata) :: s.active.erase e) ++ rest ++
          s.ecache_muzzy) ++ s.ecache_retained).Perm
          ((⟨e.base, nsz⟩ : Edata) ::
            (s.active.erase e ++ rest ++ s.ecache_muzzy ++ s.ecache_retained)) :=
        perm_pull1 (s.active.erase e) rest s.ecache_muzzy s.ecache_retained
          (⟨e.base, nsz⟩ : Edata)
      refine ⟨?_, ?_, ?_⟩
      · exact pairwise_edisj_of_perm hperm2.symm (pairwise_expand1 hlt hdb hnd hpos hpw2)
      · intro x hx
        have hx2 := hperm2.mem_iff.mp hx
        rcases List.mem_cons.mp hx2 with hx3 | hx3
        · subst hx3
          refine ⟨by show 0 < nsz; omega, ?_⟩
          show e.base + nsz ≤ s.os_next
          omega
        · have hx5 : x ∈ extents s := hKperm.mem_iff.mpr
            (List.mem_cons_of_mem _ (List.mem_cons_of_mem _ hx3))
          simpa using hbd x hx5
      · show s.nactive + (nsz - e.size) =
          sumBytes ((⟨e.base, nsz⟩ : Edata) :: s.active.erase e)
        rw [sumBytes_cons]
        show s.nactive + (nsz - e.size) = nsz + sumBytes (s.active.erase e)
        omega
  | none =>
    simp only [pa_expand, he, hlt, and_self, if_true, hr, hm, hd]
    exact ⟨hpw, hbd, hact⟩

theorem step_inv {s s2 : PaShard} (h : Inv s) (hs : Step s s2) : Inv s2 := by
  cases hs with
  | alloc sz ok => exact inv_alloc s sz ok h
  | expand e nsz => exact inv_expand s e nsz h
  | shrink e nsz => exact inv_shrink s e nsz h
  | dalloc e => exact inv_dalloc s e h
  | decay_all t fd => exact inv_decay_all s t fd h
  | maybe_decay_purge t now ps => exact inv_maybe_decay_purge s t now ps h
  | extent_sn_next => exact inv_sn_next h

theorem reachable_inv {s : PaShard} (h : Reachable s) : Inv s := by
  induction h with
  | init d m => exact inv_init d m
  | step _ hs ih => exact step_inv ih hs

/-- Claim C1: in every reachable state of one pa_shard, all pairs of
descriptors that are simultaneously in the active state or present in
any of the shard's three extent caches (ecache_dirty, ecache_muzzy,
ecache_retained) have pairwise disjoint address ranges; reachability
closes the property under every public operation (pa_alloc, pa_expand,
pa_shrink, pa_dalloc, pa_decay_all, pa_maybe_decay_purge). -/
theorem no_overlap_invariant {s : PaShard} (h : Reachable s) :
    (extents s).Pairwise edisj :=
  (reachable_inv h).1

theorem no_overlap_invariant_witness :
    (extents (pa_alloc (pa_shard_init 10 10) 4 true).1).Pairwise edisj :=
  no_overlap_invariant (Reachable.step (Reachable.init 10 10) (Step.alloc _ 4 true))

/-- Claim C2: in every reachable state of a pa_shard, the active-page
counter `nactive` equals the sum of the sizes of the descriptors
currently in the active state, independent of the cached descriptors;
reachability closes the equality under every public operation
(pa_alloc adds the granted size, pa_dalloc subtracts the freed size). -/
theorem nactive_conservation {s : PaShard} (h : Reachable s) :
    s.nactive = sumBytes s.active :=
  (reachable_inv h).2.2

theorem nactive_conservation_witness :
    (pa_alloc (pa_shard_init 10 10) 4 true).1.nactive =
      sumBytes (pa_alloc (pa_shard_init 10 10) 4 true).1.active :=
  nactive_conservation (Reachable.step (Reachable.init 10 10) (Step.alloc _ 4 true))

theorem pa_alloc_sn (s : PaShard) (sz : Nat) (ok : Bool) :
    s.extent_sn_next ≤ (pa_alloc s sz ok).1.extent_sn_next := by
  rw [pa_alloc]
  by_cases hsz : sz = 0
  · simp [hsz]
  simp only [hsz, ite_false, if_false]
  cases hd : cacheTake sz s.ecache_dirty with
  | some p =>
    obtain ⟨f, rest⟩ := p
    simp
  | none =>
  cases hm : cacheTake sz s.ecache_muzzy with
  | some p =>
    obtain ⟨f, rest⟩ := p
    simp
  | none =>
  cases hr : cacheTake sz s.ecache_retained with
  | some p =>
    obtain ⟨f, rest⟩ := p
    simp
  | none =>
  cases ok with
  | true => simp
  | false => simp

theorem pa_expand_sn (s : PaShard) (e : Edata) (nsz : Nat) :
    (pa_expand s e nsz).1.extent_sn_next = s.extent_sn_next := by
  by_cases hg : e ∈ s.active ∧ e.size < nsz
  case neg => simp [pa_expand, hg]
  obtain ⟨he, hlt⟩ := hg
  cases hr : takeAdj (e.base + e.size) (nsz - e.size) s.ecache_retained with
  | some p =>
    obtain ⟨d, rest⟩ := p
    simp [pa_expand, he, hlt, hr]
  | none =>
  cases hm : takeAdj (e.base + e.size) (nsz - e.size) s.ecache_muzzy with
  | some p =>
    obtain ⟨d, rest⟩ := p
    simp [pa_expand, he, hlt, hr, hm]
  | none =>
  cases hd : takeAdj (e.base + e.size) (nsz - e.size) s.ecache_dirty with
  | some p =>
    obtain ⟨d, rest⟩ := p
    simp [pa_expand, he, hlt, hr, hm, hd]
  | none =>
    simp [pa_expand, he, hlt, hr, hm, hd]

theorem pa_shrink_sn (s : PaShard) (e : Edata) (nsz : Nat) :
    (pa_shrink s e nsz).1.extent_sn_next = s.extent_sn_next := by
  by_cases hg : e ∈ s.active ∧ 0 < nsz ∧ nsz < e.size
  · simp [pa_shrink, hg]
  · simp [pa_shrink, hg]

theorem pa_dalloc_sn (s : PaShard) (e : Edata) :
    (pa_dalloc s e).1.extent_sn_next = s.extent_sn_next := by
  by_cases he : e ∈ s.active
  · simp [pa_dalloc, he]
  · simp [pa_dalloc, he]

theorem pa_decay_all_sn (s : PaShard) (t : Tier) (fd : Bool) :
    (pa_decay_all s t fd).extent_sn_next = s.extent_sn_next := by
  cases t <;> cases fd <;> simp [pa_decay_all]

theorem setTierEpoch_sn (s : PaShard) (t : Tier) (n : Nat) :
    (setTierEpoch s t n).extent_sn_next = s.extent_sn_next := by
  cases t <;> simp [setTierEpoch]

theorem pa_maybe_decay_purge_sn (s : PaShard) (t : Tier) (now : Nat)
    (ps : PaDecayPurgeSetting) :
    (pa_maybe_decay_purge s t now ps).1.extent_sn_next = s.extent_sn_next := by
  rw [pa_maybe_decay_purge]
  by_cases h1 : decay_ms_read (tierDecay s t) ≤ 0
  · by_cases h2 : decay_ms_read (tierDecay s t) = 0
    · simp only [h1, h2, if_true, if_pos]
      exact pa_decay_all_sn s t false
    · simp only [h1, h2, if_pos, if_neg, ite_false]
  · by_cases h3 : ((tierDecay s t).epoch : Int) + decay_ms_read (tierDecay s t) ≤ (now : Int)
    · simp only [h1, h3, if_neg, if_pos, ite_true, ite_false, not_false_iff]
      cases ps
      · exact (pa_decay_all_sn _ t false).trans (setTierEpoch_sn s t now)
      · exact setTierEpoch_sn s t now
      · exact (pa_decay_all_sn _ t false).trans (setTierEpoch_sn s t now)
    · simp only [h1, h3, if_neg, ite_false]

/-- Claim C8: the extent serial-number source is the single shard-wide
counter `extent_sn_next`, drawn via `pa_shard_extent_sn_next`: two
successive draws on the same shard return strictly increasing values,
and no shard operation ever decreases the counter. -/
theorem extent_sn_monotone :
    (∀ s : PaShard,
      (pa_shard_extent_sn_next s).1 <
        (pa_shard_extent_sn_next (pa_shard_extent_sn_next s).2).1) ∧
    (∀ s s2 : PaShard, Step s s2 → s.extent_sn_next ≤ s2.extent_sn_next) := by
  constructor
  · intro s
    show s.extent_sn_next < s.extent_sn_next + 1
    omega
  · intro s s2 hs
    cases hs with
    | alloc sz ok => exact pa_alloc_sn s sz ok
    | expand e nsz => exact (pa_expand_sn s e nsz).ge
    | shrink e nsz => exact (pa_shrink_sn s e nsz).ge
    | dalloc e => exact (pa_dalloc_sn s e).ge
    | decay_all t fd => exact (pa_decay_all_sn s t fd).ge
    | maybe_decay_purge t now ps => exact (pa_maybe_decay_purge_sn s t now ps).ge
    | extent_sn_next =>
      show s.extent_sn_next ≤ s.extent_sn_next + 1
      omega

theorem extent_sn_monotone_witness :
    (pa_shard_extent_sn_next (pa_shard_init 0 0)).1 <
      (pa_shard_extent_sn_next (pa_shard_extent_sn_next (pa_shard_init 0 0)).2).1 ∧
    (pa_shard_init 0 0).extent_sn_next ≤
      (pa_dalloc (pa_shard_init 0 0) ⟨0, 1⟩).1.extent_sn_next :=
  ⟨extent_sn_monotone.1 (pa_shard_init 0 0),
    extent_sn_monotone.2 (pa_shard_init 0 0) _ (Step.dalloc _ _)⟩

/-- A cache holds an extent large enough for a request of `sz` pages. -/
def hasFit (sz : Nat) (c : List Edata) : Prop :=
  ∃ e ∈ c, sz ≤ e.size

theorem cacheTake_none_iff {sz : Nat} {c : List Edata} :
    cacheTake sz c = none ↔ ¬ hasFit sz c := by
  constructor
  · intro h ⟨e, he, hle⟩
    have := cacheTake_eq_none h e he
    omega
  · intro h
    cases hc : cacheTake sz c with
    | none => rfl
    | some p =>
      obtain ⟨f, rest⟩ := p
      obtain ⟨hle, hcp⟩ := cacheTake_some hc
      exact absurd ⟨f, hcp.mem_iff.mpr (List.mem_cons_self _ _), hle⟩ h

theorem cacheTake_isSome_of_hasFit {sz : Nat} {c : List Edata} (h : hasFit sz c) :
    cacheTake sz c ≠ none := by
  intro hn
  exact (cacheTake_none_iff.mp hn) h

/-- Claim C3: `pa_alloc` tries its sources in the fixed order dirty
cache, muzzy cache, retained cache, then a fresh OS mapping; it returns
no descriptor exactly when no cache holds a sufficient extent and the OS
mapping collaborator cannot satisfy the request (the model has no
metadata-allocator failure, so the only failure source is the OS
collaborator); the source of a granted descriptor is determined by this
order. -/
theorem pa_alloc_source_order (s : PaShard) (sz : Nat) (ok : Bool) (hsz : 0 < sz) :
    ((pa_alloc s sz ok).2 = none ↔
      (¬ hasFit sz s.ecache_dirty ∧ ¬ hasFit sz s.ecache_muzzy ∧
        ¬ hasFit sz s.ecache_retained ∧ ok = false)) ∧
    (∀ e src, (pa_alloc s sz ok).2 = some (e, src) →
      ((src = AllocSource.dirty ↔ hasFit sz s.ecache_dirty) ∧
       (src = AllocSource.muzzy ↔
         ¬ hasFit sz s.ecache_dirty ∧ hasFit sz s.ecache_muzzy) ∧
       (src = AllocSource.retained ↔
         ¬ hasFit sz s.ecache_dirty ∧ ¬ hasFit sz s.ecache_muzzy ∧
           hasFit sz s.ecache_retained) ∧
       (src = AllocSource.os ↔
         ¬ hasFit sz s.ecache_dirty ∧ ¬ hasFit sz s.ecache_muzzy ∧
           ¬ hasFit sz s.ecache_retained ∧ ok = true))) := by
  have hne : ¬ sz = 0 := by omega
  rw [pa_alloc]
  simp only [hne, ite_false, if_false]
  cases hd : cacheTake sz s.ecache_dirty with
  | some p =>
    obtain ⟨f, rest⟩ := p
    obtain ⟨hle, hcp⟩ := cacheTake_some hd
    have hfit : hasFit sz s.ecache_dirty :=
      ⟨f, hcp.mem_iff.mpr (List.mem_cons_self _ _), hle⟩
    constructor
    · simp [hfit]
    · intro e src hsome
      simp only [Option.some.injEq, Prod.mk.injEq] at hsome
      obtain ⟨-, hsrc⟩ := hsome
      subst hsrc
      simp [hfit]
  | none =>
  have hnd : ¬ hasFit sz s.ecache_dirty := cacheTake_none_iff.mp hd
  cases hm : cacheTake sz s.ecache_muzzy with
  | some p =>
    obtain ⟨f, rest⟩ := p
    obtain ⟨hle, hcp⟩ := cacheTake_some hm
    have hfit : hasFit sz s.ecache_muzzy :=
      ⟨f, hcp.mem_iff.mpr (List.mem_cons_self _ _), hle⟩
    constructor
    · simp [hfit]
    · intro e src hsome
      simp only [Option.some.injEq, Prod.mk.injEq] at hsome
      obtain ⟨-, hsrc⟩ := hsome
      subst hsrc
      simp [hfit, hnd]
  | none =>
  have hnm : ¬ hasFit sz s.ecache_muzzy := cacheTake_none_iff.mp hm
  cases hr : cacheTake sz s.ecache_retained with
  | some p =>
    obtain ⟨f, rest⟩ := p
    obtain ⟨hle, hcp⟩ := cacheTake_some hr
    have hfit : hasFit sz s.ecache_retained :=
      ⟨f, hcp.mem_iff.mpr (List.mem_cons_self _ _), hle⟩
    constructor
    · simp [hfit]
    · intro e src hsome
      simp only [Option.some.injEq, Prod.mk.injEq] at hsome
      obtain ⟨-, hsrc⟩ := hsome
      subst hsrc
      simp [hfit, hnd, hnm]
  | none =>
  have hnr : ¬ hasFit sz s.ecache_retained := cacheTake_none_iff.mp hr
  cases ok with
  | true =>
    constructor
    · simp
    · intro e src hsome
      simp only [if_true, Option.some.injEq, Prod.mk.injEq] at hsome
      obtain ⟨-, hsrc⟩ := hsome
      subst hsrc
      simp [hnd, hnm, hnr]
  | false =>
    constructor
    · simp [hnd, hnm, hnr]
    · intro e src hsome
      simp at hsome

theorem pa_alloc_source_order_witness :
    (pa_alloc (pa_shard_init 0 0) 1 false).2 = none :=
  (pa_alloc_source_order (pa_shard_init 0 0) 1 false (by decide)).1.mpr
    ⟨by simp [hasFit, pa_shard_init], by simp [hasFit, pa_shard_init],
      by simp [hasFit, pa_shard_init], rfl⟩

/-- Claim C4: whenever `pa_expand` fails (returns `true`), the shard
state is exactly as it was before the call — the descriptor, the three
extent caches, the active-page counter and the statistics are all
untouched (all-or-nothing). -/
theorem pa_expand_failure_frame (s : PaShard) (e : Edata) (nsz : Nat)
    (h : (pa_expand s e nsz).2 = true) : (pa_expand s e nsz).1 = s := by
  by_cases hg : e ∈ s.active ∧ e.size < nsz
  case neg => simp [pa_expand, hg]
  obtain ⟨he, hlt⟩ := hg
  cases hr : takeAdj (e.base + e.size) (nsz - e.size) s.ecache_retained with
  | some p =>
    obtain ⟨d, rest⟩ := p
    simp [pa_expand, he, hlt, hr] at h
  | none =>
  cases hm : takeAdj (e.base + e.size) (nsz - e.size) s.ecache_muzzy with
  | some p =>
    obtain ⟨d, rest⟩ := p
    simp [pa_expand, he, hlt, hr, hm] at h
  | none =>
  cases hd : takeAdj (e.base + e.size) (nsz - e.size) s.ecache_dirty with
  | some p =>
    obtain ⟨d, rest⟩ := p
    simp [pa_expand, he, hlt, hr, hm, hd] at h
  | none =>
    simp [pa_expand, he, hlt, hr, hm, hd]

theorem pa_expand_failure_frame_witness :
    (pa_expand (pa_shard_init 0 0) ⟨0, 1⟩ 2).1 = pa_shard_init 0 0 :=
  pa_expand_failure_frame (pa_shard_init 0 0) ⟨0, 1⟩ 2 rfl

/-- Claim C5: `pa_dalloc` sets the `generated_dirty` out-parameter to
`true` on every call (the full extent is moved to the dirty cache and
dirty-page production is always signalled; the `false` case is
unreachable, per the header comment "we alwyas set it for now"). -/
theorem pa_dalloc_generated_dirty (s : PaShard) (e : Edata) :
    (pa_dalloc s e).2 = true :=
  rfl

theorem maybe_decay_purge_never {s : PaShard} {t : Tier}
    (h : decay_ms_read (tierDecay s t) = -1) (now : Nat) (ps : PaDecayPurgeSetting) :
    pa_maybe_decay_purge s t now ps = (s, false) := by
  rw [pa_maybe_decay_purge]
  rw [h]
  norm_num

theorem maybe_decay_purge_immediate {s : PaShard} {t : Tier}
    (h : decay_ms_read (tierDecay s t) = 0) (now : Nat) (ps : PaDecayPurgeSetting) :
    pa_maybe_decay_purge s t now ps = (pa_decay_all s t false, false) := by
  rw [pa_maybe_decay_purge]
  rw [h]
  norm_num

theorem tierEcache_decay_all_empty (s : PaShard) (t : Tier) :
    tierEcache (pa_decay_all s t false) t = [] := by
  cases t <;> simp [pa_decay_all, tierEcache]

/-- Claim C6: a decay controller configured "never" (decay time −1)
never purges: any sequence of `pa_maybe_decay_purge` calls, at any
wall-clock times and with any purge settings, leaves the shard
untouched; a controller configured "immediate" (decay time 0) purges
all currently cached bytes of its tier on the very next
`pa_maybe_decay_purge` check. -/
theorem decay_never_and_immediate (s : PaShard) (t : Tier) :
    (decay_ms_read (tierDecay s t) = -1 →
      ∀ calls : List (Nat × PaDecayPurgeSetting),
        calls.foldl (fun st c => (pa_maybe_decay_purge st t c.1 c.2).1) s = s) ∧
    (decay_ms_read (tierDecay s t) = 0 →
      ∀ now ps, tierEcache (pa_maybe_decay_purge s t now ps).1 t = []) := by
  constructor
  · intro h calls
    induction calls with
    | nil => rfl
    | cons c cs ih =>
      rw [List.foldl_cons, maybe_decay_purge_never h c.1 c.2]
      exact ih
  · intro h now ps
    rw [maybe_decay_purge_immediate h now ps]
    exact tierEcache_decay_all_empty s t

/-- A shard holding one 4-page dirty extent with immediate dirty decay,
used to exhibit the "immediate" half of claim C6. -/
def demoShardC6 : PaShard :=
  { pa_shard_init 0 7 with ecache_dirty := [⟨0, 4⟩], os_next := 4 }

theorem decay_never_and_immediate_witness :
    ([((5 : Nat), PaDecayPurgeSetting.always)].foldl
        (fun st c => (pa_maybe_decay_purge st Tier.dirty c.1 c.2).1)
        (pa_shard_init (-1) 7) = pa_shard_init (-1) 7) ∧
    tierEcache
      (pa_maybe_decay_purge demoShardC6 Tier.dirty 9 PaDecayPurgeSetting.never).1
      Tier.dirty = [] :=
  ⟨(decay_never_and_immediate (pa_shard_init (-1) 7) Tier.dirty).1 rfl _,
    (decay_never_and_immediate demoShardC6 Tier.dirty).2 rfl 9 PaDecayPurgeSetting.never⟩

/-- Claim C7: `pa_shard_may_force_decay` returns `true` exactly when
neither the dirty nor the muzzy decay interval is −1 ("never"), and
`false` exactly when at least one of them is −1. -/
theorem may_force_decay_iff (s : PaShard) :
    (pa_shard_may_force_decay s = true ↔
      (pa_shard_dirty_decay_ms_get s ≠ -1 ∧ pa_shard_muzzy_decay_ms_get s ≠ -1)) ∧
    (pa_shard_may_force_decay s = false ↔
      (pa_shard_dirty_decay_ms_get s = -1 ∨ pa_shard_muzzy_decay_ms_get s = -1)) := by
  constructor
  · simp [pa_shard_may_force_decay, not_or]
  · simp only [pa_shard_may_force_decay, Bool.not_eq_false', Bool.or_eq_true, beq_iff_eq]

/-- Claim C10: `pa_shard_stats_mapped_add` adds exactly `size` to the
shard's `stats.mapped` counter (the count of bytes currently mapped,
excluding retained memory) and changes nothing else: every other
statistics field and every other shard field is untouched. -/
theorem stats_mapped_add_frame (s : PaShard) (n : Nat) :
    (pa_shard_stats_mapped_add s n).stats.mapped = s.stats.mapped + n ∧
    (pa_shard_stats_mapped_add s n).stats.decay_dirty = s.stats.decay_dirty ∧
    (pa_shard_stats_mapped_add s n).stats.decay_muzzy = s.stats.decay_muzzy ∧
    (pa_shard_stats_mapped_add s n).stats.abandoned_vm = s.stats.abandoned_vm ∧
    (pa_shard_stats_mapped_add s n).nactive = s.nactive ∧
    (pa_shard_stats_mapped_add s n).ecache_dirty = s.ecache_dirty ∧
    (pa_shard_stats_mapped_add s n).ecache_muzzy = s.ecache_muzzy ∧
    (pa_shard_stats_mapped_add s n).ecache_retained = s.ecache_retained ∧
    (pa_shard_stats_mapped_add s n).active = s.active ∧
    (pa_shard_stats_mapped_add s n).ecache_grow = s.ecache_grow ∧
    (pa_shard_stats_mapped_add s n).extent_sn_next = s.extent_sn_next ∧
    (pa_shard_stats_mapped_add s n).decay_dirty = s.decay_dirty ∧
    (pa_shard_stats_mapped_add s n).decay_muzzy = s.decay_muzzy ∧
    (pa_shard_stats_mapped_add s n).os_next = s.os_next :=
  ⟨rfl, rfl, rfl, rfl, rfl, rfl, rfl, rfl, rfl, rfl, rfl, rfl, rfl, rfl⟩

end PA
